import Mathlib

/-!
Verification of the `pypgcf` species-demarcation pipeline
(`src/pypgcf/species_demarcation.py`) against its specification.

The pipeline has three kinds of components, embedded here at matching levels:

* pure data transformations (`prepare_input_for_mcl`, the genome-identifier
  normalization in `parse_mcx_output`, the manifest writer
  `create_input_for_fastani`, the dump-file parser) are embedded as pure
  Lean functions over lists of characters / records;
* Python's `str.split(sep)` / `sep.join` are embedded as `splitOnChar` /
  `joinWith` over `List Char`, with the same semantics (no collapsing of
  empty fields, a split always yields at least one field);
* the stateful controller (`assign_species`, `perform_fastani`, `run_mcl`,
  `clean_mcl`) is embedded as explicit state passing over an abstract
  staging directory (`PState`): the set of file names present plus the
  trace of external commands executed.  The behaviour of the external
  tools (exit status, whether the expected output file appears) is a
  parameter `Env`, and a Python exception is an `Except` error value:
  `PipelineError.fileNotFound` for `FileNotFoundError` (both the explicit
  `check_if_file_exists` raises and the `Path.rename` failure) and
  `PipelineError.runtimeError` for `RuntimeError`.
-/

/-! ### Python string splitting over `List Char` -/

/-- Python `s.split(c)` for a single-character separator `c`: split at every
occurrence, keeping empty fields; the result is never empty. -/
def splitOnChar (c : Char) : List Char → List (List Char)
  | [] => [[]]
  | x :: xs =>
    if x = c then [] :: splitOnChar c xs
    else
      match splitOnChar c xs with
      | [] => [[x]]
      | y :: ys => (x :: y) :: ys

/-- Python `c.join(l)` for a single-character separator. -/
def joinWith (c : Char) : List (List Char) → List Char
  | [] => []
  | [x] => x
  | x :: xs => x ++ c :: joinWith c xs

theorem splitOnChar_ne_nil (c : Char) (s : List Char) : splitOnChar c s ≠ [] := by
  induction s with
  | nil => simp [splitOnChar]
  | cons x xs ih =>
    simp only [splitOnChar]
    split
    · simp
    · split
      · simp
      · simp

theorem not_mem_of_mem_splitOnChar (c : Char) (s : List Char) :
    ∀ a ∈ splitOnChar c s, c ∉ a := by
  induction s with
  | nil =>
    intro a ha
    simp [splitOnChar] at ha
    simp [ha]
  | cons x xs ih =>
    intro a ha
    simp only [splitOnChar] at ha
    split at ha
    · rcases List.mem_cons.mp ha with h | h
      · simp [h]
      · exact ih a h
    · rename_i hxc
      rcases hsp : splitOnChar c xs with _ | ⟨y, ys⟩
      · exact absurd hsp (splitOnChar_ne_nil c xs)
      · rw [hsp] at ha
        rcases List.mem_cons.mp ha with h | h
        · subst h
          intro hmem
          rcases List.mem_cons.mp hmem with h | h
          · exact hxc h.symm
          · exact ih y (by rw [hsp]; exact List.mem_cons_self y ys) h
        · exact ih a (by rw [hsp]; exact List.mem_cons_of_mem y h)

theorem splitOnChar_of_not_mem (c : Char) (a : List Char) (h : c ∉ a) :
    splitOnChar c a = [a] := by
  induction a with
  | nil => simp [splitOnChar]
  | cons x xs ih =>
    simp only [List.mem_cons, not_or] at h
    simp only [splitOnChar]
    rw [if_neg (fun hx => h.1 hx.symm), ih h.2]

theorem splitOnChar_append_cons (c : Char) (a t : List Char) (h : c ∉ a) :
    splitOnChar c (a ++ c :: t) = a :: splitOnChar c t := by
  induction a with
  | nil => simp [splitOnChar]
  | cons x xs ih =>
    simp only [List.mem_cons, not_or] at h
    simp only [List.cons_append, splitOnChar, List.append_eq]
    rw [if_neg (fun hx => h.1 hx.symm), ih h.2]

theorem splitOnChar_joinWith (c : Char) (l : List (List Char)) (hne : l ≠ [])
    (h : ∀ a ∈ l, c ∉ a) : splitOnChar c (joinWith c l) = l := by
  induction l with
  | nil => exact absurd rfl hne
  | cons a l ih =>
    cases l with
    | nil =>
      simp only [joinWith]
      exact splitOnChar_of_not_mem c a (h a (List.mem_cons_self a []))
    | cons b l' =>
      have hjoin : joinWith c (a :: b :: l') = a ++ c :: joinWith c (b :: l') := rfl
      rw [hjoin, splitOnChar_append_cons c a _ (h a (List.mem_cons_self _ _))]
      rw [ih (by simp) (fun x hx => h x (List.mem_cons_of_mem a hx))]

/-! ### Genome-identifier normalization (`parse_mcx_output`, lines 127-128)

`df.index = [idx.split("/")[-1] for idx in df.index]` followed by
`df.index = [".".join(idx.split(".")[:-1]) for idx in df.index]`. -/

/-- `idx.split("/")[-1]`: the final path segment.  A Python split is never
empty, so `[-1]` never raises; `getLastD` with an unreachable default is
faithful. -/
def lastPathSegment (s : List Char) : List Char :=
  (splitOnChar '/' s).getLastD []

/-- `".".join(idx.split(".")[:-1])`: drop the final dot-separated segment. -/
def stripFinalExtension (s : List Char) : List Char :=
  joinWith '.' ((splitOnChar '.' s).dropLast)

/-- The full genome-identifier normalization applied to the dump-file index. -/
def normalizeGenomeId (s : List Char) : List Char :=
  stripFinalExtension (lastPathSegment s)

/-! ### The similarity-threshold filter (`prepare_input_for_mcl`) -/

/-- One parsed row of the fastANI output table, with the five columns named
in `prepare_input_for_mcl` (`query` is the index column). The similarity
value is modelled as a rational. -/
structure FastAniRow where
  query : List Char
  target : List Char
  ani : Rat
  query_length : Nat
  target_length : Nat
deriving DecidableEq

/-- One row of the edge list written for mcl: the two fragment-count columns
are gone. -/
structure EdgeRow where
  query : List Char
  target : List Char
  ani : Rat
deriving DecidableEq

/-- `prepare_input_for_mcl`: `ANI < 95` becomes NaN (`filterMap` to `none`),
`dropna` removes those rows, and the two length columns are dropped. -/
def prepare_input_for_mcl (rows : List FastAniRow) : List EdgeRow :=
  (rows.filterMap (fun r => if r.ani < 95 then none else some r)).map
    (fun r => ⟨r.query, r.target, r.ani⟩)

/-- The file written by `df.to_csv(fout, sep="\t", header=False)`: one row of
cells per record (index column included), no header row.  The numeric cell is
rendered by `numCell`. -/
def numCell (q : Rat) : List Char :=
  (toString q.num).toList ++ '/' :: (toString q.den).toList

def edgeFileRows (rows : List FastAniRow) : List (List (List Char)) :=
  (prepare_input_for_mcl rows).map (fun e => [e.query, e.target, numCell e.ani])

/-! ### The dump-file parser (`parse_mcx_output`, lines 113-124)

`results = {}` is a Python dict; `results[l] = clust_num` overwrites the
value of an existing key in place and appends a new key.  `clust_num`
increments once per line of the dump file, tokens or not. -/

abbrev Token := List Char

/-- Python dict assignment `d[k] = v` on an insertion-ordered association
list: update in place when the key exists, else append. -/
def dictInsert (k : Token) (v : Nat) : List (Token × Nat) → List (Token × Nat)
  | [] => [(k, v)]
  | (k', v') :: rest => if k' = k then (k, v) :: rest else (k', v') :: dictInsert k v rest

/-- Association-list lookup matching the first (hence, for a dict, only)
occurrence of the key. -/
def lookupD (k : Token) : List (Token × Nat) → Option Nat
  | [] => none
  | (k', v) :: rest => if k' = k then some v else lookupD k rest

/-- The inner loop `for l in lines: results[l] = clust_num`. -/
def insertLine (i : Nat) (toks : List Token) (d : List (Token × Nat)) :
    List (Token × Nat) :=
  toks.foldl (fun d t => dictInsert t i d) d

/-- The outer loop over the dump file's lines, `clust_num` starting at `i`. -/
def buildResults (i : Nat) (ls : List (List Token)) (d : List (Token × Nat)) :
    List (Token × Nat) :=
  match ls with
  | [] => d
  | l :: ls => buildResults (i + 1) ls (insertLine i l d)

/-- The `results` dict of `parse_mcx_output` for a dump file given as its
lines of tab-separated tokens. -/
def mcxResults (lines : List (List Token)) : List (Token × Nat) :=
  buildResults 0 lines []

/-- `"C" + str(x)`: the cluster label. -/
def labelOf (n : Nat) : List Char :=
  'C' :: (toString n).toList

/-- One row of the final table: the normalized genome identifier (the index)
and the single value column, named `FastANI_species` in the DataFrame. -/
structure SpeciesRow where
  genome : List Char
  FastANI_species : List Char
deriving DecidableEq

/-- The table written by `parse_mcx_output`: the `ClustNum` column is mapped
to the label and dropped, and the index is normalized. -/
def speciesTable (lines : List (List Token)) : List SpeciesRow :=
  (mcxResults lines).map (fun p => ⟨normalizeGenomeId p.1, labelOf p.2⟩)

/-! Lemmas about the dict operations. -/

theorem lookupD_dictInsert_self (k : Token) (v : Nat) (d : List (Token × Nat)) :
    lookupD k (dictInsert k v d) = some v := by
  induction d with
  | nil => simp [dictInsert, lookupD]
  | cons p rest ih =>
    obtain ⟨k', v'⟩ := p
    by_cases h : k' = k
    · simp [dictInsert, h, lookupD]
    · simp [dictInsert, h, lookupD, ih]

theorem lookupD_dictInsert_ne (k k' : Token) (v : Nat) (d : List (Token × Nat))
    (h : k' ≠ k) : lookupD k' (dictInsert k v d) = lookupD k' d := by
  induction d with
  | nil => simp [dictInsert, lookupD, Ne.symm h]
  | cons p rest ih =>
    obtain ⟨k₀, v₀⟩ := p
    by_cases h0 : k₀ = k
    · subst h0
      simp [dictInsert, lookupD, Ne.symm h]
    · simp only [dictInsert, if_neg h0, lookupD, ih]

theorem keys_dictInsert (k : Token) (v : Nat) (d : List (Token × Nat)) :
    (dictInsert k v d).map Prod.fst =
      if k ∈ d.map Prod.fst then d.map Prod.fst else d.map Prod.fst ++ [k] := by
  induction d with
  | nil => simp [dictInsert]
  | cons p rest ih =>
    obtain ⟨k₀, v₀⟩ := p
    by_cases h0 : k₀ = k
    · subst h0
      simp [dictInsert]
    · simp only [dictInsert, if_neg h0, List.map_cons, ih]
      by_cases hmem : k ∈ rest.map Prod.fst
      · simp [hmem]
      · simp [hmem, Ne.symm h0]

theorem nodup_keys_dictInsert (k : Token) (v : Nat) (d : List (Token × Nat))
    (h : (d.map Prod.fst).Nodup) : ((dictInsert k v d).map Prod.fst).Nodup := by
  rw [keys_dictInsert]
  by_cases hmem : k ∈ d.map Prod.fst
  · simpa [hmem] using h
  · rw [if_neg hmem]
    refine List.Nodup.append h (List.nodup_singleton k) ?_
    intro a ha hb
    rw [List.mem_singleton] at hb
    subst hb
    exact hmem ha

theorem lookupD_insertLine_of_not_mem (i : Nat) (toks : List Token)
    (d : List (Token × Nat)) (t : Token) (h : t ∉ toks) :
    lookupD t (insertLine i toks d) = lookupD t d := by
  induction toks generalizing d with
  | nil => rfl
  | cons x rest ih =>
    simp only [List.mem_cons, not_or] at h
    simp only [insertLine, List.foldl_cons]
    rw [show List.foldl (fun d t => dictInsert t i d) (dictInsert x i d) rest
        = insertLine i rest (dictInsert x i d) from rfl]
    rw [ih (dictInsert x i d) h.2, lookupD_dictInsert_ne x t i d h.1]

theorem lookupD_insertLine_of_mem (i : Nat) (toks : List Token)
    (d : List (Token × Nat)) (t : Token) (h : t ∈ toks) :
    lookupD t (insertLine i toks d) = some i := by
  induction toks generalizing d with
  | nil => exact absurd h (List.not_mem_nil t)
  | cons x rest ih =>
    simp only [insertLine, List.foldl_cons]
    rw [show List.foldl (fun d t => dictInsert t i d) (dictInsert x i d) rest
        = insertLine i rest (dictInsert x i d) from rfl]
    by_cases hr : t ∈ rest
    · exact ih (dictInsert x i d) hr
    · have hx : t = x := by
        rcases List.mem_cons.mp h with h' | h'
        · exact h'
        · exact absurd h' hr
      subst hx
      rw [lookupD_insertLine_of_not_mem i rest _ t hr, lookupD_dictInsert_self]

theorem nodup_keys_insertLine (i : Nat) (toks : List Token)
    (d : List (Token × Nat)) (h : (d.map Prod.fst).Nodup) :
    ((insertLine i toks d).map Prod.fst).Nodup := by
  induction toks generalizing d with
  | nil => exact h
  | cons x rest ih =>
    simp only [insertLine, List.foldl_cons]
    exact ih (dictInsert x i d) (nodup_keys_dictInsert x i d h)

theorem nodup_keys_buildResults (i : Nat) (ls : List (List Token))
    (d : List (Token × Nat)) (h : (d.map Prod.fst).Nodup) :
    ((buildResults i ls d).map Prod.fst).Nodup := by
  induction ls generalizing i d with
  | nil => exact h
  | cons l ls ih =>
    exact ih (i + 1) (insertLine i l d) (nodup_keys_insertLine i l d h)

theorem nodup_keys_mcxResults (lines : List (List Token)) :
    ((mcxResults lines).map Prod.fst).Nodup :=
  nodup_keys_buildResults 0 lines [] List.nodup_nil

/-- The index of the last line of `ls` containing token `t`, if any: the
value the dict holds for `t` at the end, since later assignments overwrite
earlier ones. -/
def lastIdx (t : Token) : List (List Token) → Option Nat
  | [] => none
  | l :: ls =>
    match lastIdx t ls with
    | some j => some (j + 1)
    | none => if t ∈ l then some 0 else none

theorem lookupD_buildResults (t : Token) (i : Nat) (ls : List (List Token))
    (d : List (Token × Nat)) :
    lookupD t (buildResults i ls d) =
      match lastIdx t ls with
      | some j => some (i + j)
      | none => lookupD t d := by
  induction ls generalizing i d with
  | nil => rfl
  | cons l ls ih =>
    simp only [buildResults, lastIdx]
    rw [ih (i + 1) (insertLine i l d)]
    cases hl : lastIdx t ls with
    | some j => simp only [Nat.add_assoc, Nat.add_comm 1 j]
    | none =>
      by_cases hm : t ∈ l
      · simp only [if_pos hm, lookupD_insertLine_of_mem i l d t hm, Nat.add_zero]
      · simp only [if_neg hm, lookupD_insertLine_of_not_mem i l d t hm]

theorem not_mem_getD_of_lastIdx_none (t : Token) (ls : List (List Token))
    (h : lastIdx t ls = none) : ∀ k, t ∉ ls.getD k [] := by
  induction ls with
  | nil => intro k; simp [List.getD]
  | cons l ls ih =>
    intro k
    simp only [lastIdx] at h
    rcases hl : lastIdx t ls with _ | j
    · rw [hl] at h
      by_cases hm : t ∈ l
      · rw [if_pos hm] at h; exact absurd h (by simp)
      · cases k with
        | zero => simpa using hm
        | succ k' => simpa using ih hl k'
    · rw [hl] at h; exact absurd h (by simp)

theorem lastIdx_none_of_not_mem_getD (t : Token) (ls : List (List Token))
    (h : ∀ k, t ∉ ls.getD k []) : lastIdx t ls = none := by
  induction ls with
  | nil => rfl
  | cons l ls ih =>
    have h0 : t ∉ l := by simpa using h 0
    have hrest : lastIdx t ls = none := ih (fun k => by simpa using h (k + 1))
    simp [lastIdx, hrest, h0]

theorem mem_getD_of_lastIdx (t : Token) (ls : List (List Token)) (j : Nat)
    (h : lastIdx t ls = some j) : t ∈ ls.getD j [] := by
  induction ls generalizing j with
  | nil => exact absurd h (by simp [lastIdx])
  | cons l ls ih =>
    simp only [lastIdx] at h
    rcases hl : lastIdx t ls with _ | j'
    · rw [hl] at h
      by_cases hm : t ∈ l
      · rw [if_pos hm] at h
        have : j = 0 := by
          have := h; injection this with h'; omega
        subst this; simpa using hm
      · rw [if_neg hm] at h; exact absurd h (by simp)
    · rw [hl] at h
      injection h with h'
      subst h'
      simpa using ih j' hl

theorem not_mem_getD_of_lastIdx_gt (t : Token) (ls : List (List Token)) (j : Nat)
    (h : lastIdx t ls = some j) : ∀ k, j < k → t ∉ ls.getD k [] := by
  induction ls generalizing j with
  | nil => intro k _; simp [List.getD]
  | cons l ls ih =>
    intro k hk
    simp only [lastIdx] at h
    rcases hl : lastIdx t ls with _ | j'
    · rw [hl] at h
      by_cases hm : t ∈ l
      · rw [if_pos hm] at h
        injection h with h'
        subst h'
        cases k with
        | zero => omega
        | succ k' => simpa using not_mem_getD_of_lastIdx_none t ls hl k'
      · rw [if_neg hm] at h; exact absurd h (by simp)
    · rw [hl] at h
      injection h with h'
      subst h'
      cases k with
      | zero => omega
      | succ k' => simpa using ih j' hl k' (by omega)

theorem lastIdx_eq_some_of (t : Token) (ls : List (List Token)) (i : Nat)
    (h1 : t ∈ ls.getD i []) (h2 : ∀ j, i < j → t ∉ ls.getD j []) :
    lastIdx t ls = some i := by
  induction ls generalizing i with
  | nil => exact absurd h1 (by simp [List.getD])
  | cons l ls ih =>
    cases i with
    | zero =>
      have hrest : lastIdx t ls = none :=
        lastIdx_none_of_not_mem_getD t ls
          (fun k => by simpa using h2 (k + 1) (Nat.succ_pos k))
      have h0 : t ∈ l := by simpa using h1
      simp [lastIdx, hrest, h0]
    | succ i' =>
      have hrest : lastIdx t ls = some i' :=
        ih i' (by simpa using h1)
          (fun j hj => by simpa using h2 (j + 1) (by omega))
      simp [lastIdx, hrest]

theorem mem_of_lookupD_eq_some (t : Token) (v : Nat) (d : List (Token × Nat))
    (h : lookupD t d = some v) : (t, v) ∈ d := by
  induction d with
  | nil => exact absurd h (by simp [lookupD])
  | cons p rest ih =>
    obtain ⟨k, w⟩ := p
    simp only [lookupD] at h
    by_cases hk : k = t
    · rw [if_pos hk] at h
      injection h with h'
      subst hk; subst h'
      exact List.mem_cons_self _ _
    · rw [if_neg hk] at h
      exact List.mem_cons_of_mem _ (ih h)

theorem lookupD_eq_some_of_mem (t : Token) (v : Nat) (d : List (Token × Nat))
    (hnd : (d.map Prod.fst).Nodup) (h : (t, v) ∈ d) : lookupD t d = some v := by
  induction d with
  | nil => exact absurd h (List.not_mem_nil _)
  | cons p rest ih =>
    obtain ⟨k, w⟩ := p
    simp only [List.map_cons, List.nodup_cons] at hnd
    rcases List.mem_cons.mp h with h' | h'
    · rw [Prod.mk.injEq] at h'
      obtain ⟨h1, h2⟩ := h'
      subst h1
      subst h2
      simp [lookupD]
    · have hk : k ≠ t := by
        intro hkt
        subst hkt
        exact hnd.1 (List.mem_map.mpr ⟨(k, v), h', rfl⟩)
      simp only [lookupD, if_neg hk]
      exact ih hnd.2 h'

/-! ### The manifest writer (`create_input_for_fastani`, lines 39-46)

`open(str(tmp_file), "w")` truncates any existing file, then the loop
appends `str(file) + "\n"` for each input path in order. -/

/-- The text written by the loop: each path followed by a newline. -/
def create_input_for_fastani : List (List Char) → List Char
  | [] => []
  | p :: ps => p ++ '\n' :: create_input_for_fastani ps

/-- Writing the manifest over whatever was at the destination: mode `"w"`
truncates, so the old content does not survive. -/
def writeManifest (_old : List Char) (paths : List (List Char)) : List Char :=
  create_input_for_fastani paths

/-! ### The controller state model (`assign_species`, `perform_fastani`,
`run_mcl`, `clean_mcl`)

The staging directory is the list of file names present; the trace records
the external commands dispatched, in order.  `Env` fixes how each external
tool behaves: its exit status and whether its expected output file(s)
appear, plus whether the two file writes done by the controller itself
persist (the scenario the controller's existence checks guard against). -/

inductive PipelineError where
  | fileNotFound (msg : String)
  | runtimeError (msg : String)
deriving DecidableEq

deriving instance DecidableEq for Except

structure ToolBehavior where
  exitCode : Nat
  creates : Bool
deriving DecidableEq

structure Env where
  manifestPersists : Bool
  fastani : ToolBehavior
  mcxload : ToolBehavior
  mcl : ToolBehavior
  mcxdump : ToolBehavior
  edgeListPersists : Bool
deriving DecidableEq

structure PState where
  files : List String
  executed : List String
deriving DecidableEq

def addFile (f : String) (fs : List String) : List String :=
  if f ∈ fs then fs else f :: fs

def addFiles (outs : List String) (fs : List String) : List String :=
  outs.foldl (fun a o => addFile o a) fs

/-- `Path.unlink(missing_ok=True)`. -/
def removeFile (f : String) (fs : List String) : List String :=
  fs.filter (fun g => decide (g ≠ f))

/-- The file names used in the staging directory. -/
def fastANIinputName : String := "FastANI_input.txt"
def fastANItsvName : String := "FastANI.tsv"
def forMclName : String := "fastANI_for_mcl.txt"
def mtrxName : String := "fastANI_mcx_mtrx.txt"
def annotTabName : String := "fastANI_annot.tab"
def mclOutName : String := "fastANI_mcl_out.txt"
def mcxDumpName : String := "fastANI_mcx_dump.txt"
def clustersName : String := "fastANI_clusters.tsv"
def xlsxName : String := "FastANI_species_clusters.xlsx"

def fastaniFailMsg : String := "fastANI command was not successful"
def mclFailMsg : String := "Something went wrong with MCL"
def notCreatedMsg (f : String) : String := f ++ " was not created"

/-- `dispatchers.execute_command`: the tool may leave its output files (or
not), and reports an exit status. -/
def runTool (cmd : String) (tb : ToolBehavior) (outputs : List String)
    (ps : PState) : PState × Nat :=
  (⟨if tb.creates then addFiles outputs ps.files else ps.files,
    ps.executed ++ [cmd]⟩, tb.exitCode)

/-- `perform_fastani`: dispatch fastANI, raise `RuntimeError` on a non-zero
status. -/
def perform_fastani (env : Env) (ps : PState) :
    PState × Except PipelineError Unit :=
  let r := runTool "fastANI" env.fastani [fastANItsvName] ps
  if r.2 ≠ 0 then (r.1, Except.error (PipelineError.runtimeError fastaniFailMsg))
  else (r.1, Except.ok ())

/-- `clean_mcl`: unlink the five intermediates (`missing_ok=True`), then
rename the dump file to `fastANI_clusters.tsv`.  `Path.rename` raises
`FileNotFoundError` when the source is missing. -/
def clean_mcl (fs : List String) : List String × Except PipelineError Unit :=
  let fs1 := removeFile fastANIinputName (removeFile mclOutName
    (removeFile annotTabName (removeFile mtrxName (removeFile forMclName fs))))
  if mcxDumpName ∈ fs1 then
    (addFile clustersName (removeFile mcxDumpName fs1), Except.ok ())
  else
    (fs1, Except.error (PipelineError.fileNotFound mcxDumpName))

/-- `run_mcl`: the three toolchain commands in order, raising `RuntimeError`
("Something went wrong with MCL") at the first non-zero status, then
`clean_mcl` only when all three succeeded. -/
def run_mcl (env : Env) (ps : PState) : PState × Except PipelineError Unit :=
  let r1 := runTool "mcxload" env.mcxload [mtrxName, annotTabName] ps
  if r1.2 ≠ 0 then (r1.1, Except.error (PipelineError.runtimeError mclFailMsg))
  else
    let r2 := runTool "mcl" env.mcl [mclOutName] r1.1
    if r2.2 ≠ 0 then (r2.1, Except.error (PipelineError.runtimeError mclFailMsg))
    else
      let r3 := runTool "mcxdump" env.mcxdump [mcxDumpName] r2.1
      if r3.2 ≠ 0 then (r3.1, Except.error (PipelineError.runtimeError mclFailMsg))
      else
        match clean_mcl r3.1.files with
        | (fs4, Except.ok _) => (⟨fs4, r3.1.executed⟩, Except.ok ())
        | (fs4, Except.error e) => (⟨fs4, r3.1.executed⟩, Except.error e)

/-- The file-level effect of `parse_mcx_output`: the renamed dump file is
read, unlinked, and the Excel table is written. -/
def parse_mcx_files (fs : List String) : List String :=
  addFile xlsxName (removeFile clustersName fs)

/-- `assign_species`: the whole controller, with the existence check
(`check_if_file_exists` / `raise FileNotFoundError(f"... was not created")`)
after each stage. -/
def assign_species (env : Env) : PState × Except PipelineError Unit :=
  let ps0 : PState := ⟨[], []⟩
  let ps1 : PState :=
    ⟨if env.manifestPersists then addFile fastANIinputName ps0.files else ps0.files,
     ps0.executed⟩
  if fastANIinputName ∉ ps1.files then
    (ps1, Except.error (PipelineError.fileNotFound (notCreatedMsg fastANIinputName)))
  else
    match perform_fastani env ps1 with
    | (ps2, Except.error e) => (ps2, Except.error e)
    | (ps2, Except.ok _) =>
      if fastANItsvName ∉ ps2.files then
        (ps2, Except.error (PipelineError.fileNotFound (notCreatedMsg fastANItsvName)))
      else
        let ps3 : PState :=
          ⟨if env.edgeListPersists then addFile forMclName ps2.files else ps2.files,
           ps2.executed⟩
        if forMclName ∉ ps3.files then
          (ps3, Except.error (PipelineError.fileNotFound (notCreatedMsg forMclName)))
        else
          match run_mcl env ps3 with
          | (ps4, Except.error e) => (ps4, Except.error e)
          | (ps4, Except.ok _) =>
            if clustersName ∉ ps4.files then
              (ps4, Except.error (PipelineError.fileNotFound (notCreatedMsg clustersName)))
            else
              (⟨parse_mcx_files ps4.files, ps4.executed⟩, Except.ok ())

/-! Membership lemmas for the file-set operations. -/

theorem mem_addFile (a f : String) (fs : List String) :
    a ∈ addFile f fs ↔ a = f ∨ a ∈ fs := by
  unfold addFile
  split
  · rename_i hmem
    constructor
    · exact fun h => Or.inr h
    · rintro (rfl | h)
      · exact hmem
      · exact h
  · simp [List.mem_cons]

theorem mem_addFile_of_mem (a f : String) (fs : List String) (h : a ∈ fs) :
    a ∈ addFile f fs := (mem_addFile a f fs).mpr (Or.inr h)

theorem mem_addFiles (a : String) (outs fs : List String) :
    a ∈ addFiles outs fs ↔ a ∈ outs ∨ a ∈ fs := by
  induction outs generalizing fs with
  | nil => simp [addFiles]
  | cons o os ih =>
    simp only [addFiles, List.foldl_cons]
    rw [show List.foldl (fun a o => addFile o a) (addFile o fs) os
        = addFiles os (addFile o fs) from rfl]
    rw [ih, mem_addFile]
    simp [List.mem_cons]
    tauto

theorem mem_removeFile (a f : String) (fs : List String) :
    a ∈ removeFile f fs ↔ a ∈ fs ∧ a ≠ f := by
  simp [removeFile, List.mem_filter]

/-! ### Claim theorems -/

/-- C1: an edge-list record exists iff the originating similarity record has
`ANI ≥ 95`; no sub-threshold record survives; and the written file has one
row of exactly three cells (`query`, `target`, `ANI`) per surviving record,
with no header row. -/
theorem prepare_input_for_mcl_threshold (rows : List FastAniRow) (e : EdgeRow) :
    (e ∈ prepare_input_for_mcl rows ↔
      ∃ r ∈ rows, 95 ≤ r.ani ∧ e = ⟨r.query, r.target, r.ani⟩) ∧
    (edgeFileRows rows).map List.length =
      List.replicate (prepare_input_for_mcl rows).length 3 := by
  constructor
  · simp only [prepare_input_for_mcl, List.mem_map, List.mem_filterMap]
    constructor
    · rintro ⟨r, ⟨a, ha, hif⟩, rfl⟩
      by_cases h : a.ani < 95
      · simp [h] at hif
      · simp only [if_neg h, Option.some.injEq] at hif
        subst hif
        exact ⟨a, ha, not_lt.mp h, rfl⟩
    · rintro ⟨r, hr, h95, rfl⟩
      exact ⟨r, ⟨r, hr, if_neg (not_lt.mpr h95)⟩, rfl⟩
  · simp [edgeFileRows, List.map_map, Function.comp_def]

/-- C2 counterexample: the normalization is not idempotent.  One application
takes `/a/b/genome1.fasta` to `genome1`; a second application strips a
further segment and yields the empty identifier. -/
theorem normalizeGenomeId_not_idempotent :
    normalizeGenomeId (normalizeGenomeId ("/a/b/genome1.fasta".toList)) ≠
      normalizeGenomeId ("/a/b/genome1.fasta".toList) := by decide

/-- C2 (amended): the normalization strips exactly one extension segment per
application — whenever the final path segment has at least two dot-separated
segments, the dot-split of the normalized identifier is the dot-split of the
final path segment minus its last entry — and the two format examples hold,
but a second application strips a further segment (`genome1` goes to the
empty identifier), so the map is not idempotent. -/
theorem normalizeGenomeId_strips_one_segment (s : List Char)
    (h : 2 ≤ (splitOnChar '.' (lastPathSegment s)).length) :
    splitOnChar '.' (normalizeGenomeId s) =
      (splitOnChar '.' (lastPathSegment s)).dropLast ∧
    normalizeGenomeId ("/a/b/genome1.fasta".toList) = "genome1".toList ∧
    normalizeGenomeId ("genome2.fna.gz".toList) = "genome2.fna".toList ∧
    normalizeGenomeId ("genome1".toList) = [] := by
  refine ⟨?_, by decide, by decide, by decide⟩
  unfold normalizeGenomeId stripFinalExtension
  apply splitOnChar_joinWith
  · intro hnil
    have := congrArg List.length hnil
    rw [List.length_dropLast] at this
    simp at this
    omega
  · intro a ha
    exact not_mem_of_mem_splitOnChar '.' (lastPathSegment s) a
      (List.dropLast_subset _ ha)

theorem normalizeGenomeId_strips_one_segment_witness :
    2 ≤ (splitOnChar '.' (lastPathSegment ("/a/b/genome2.fna.gz".toList))).length ∧
    splitOnChar '.' (normalizeGenomeId ("/a/b/genome2.fna.gz".toList)) =
      (splitOnChar '.' (lastPathSegment ("/a/b/genome2.fna.gz".toList))).dropLast :=
  ⟨by decide, (normalizeGenomeId_strips_one_segment _ (by decide)).1⟩

/-- C9: a dump-file token whose final path segment has no `.` normalizes to
the empty identifier, so all such tokens collide on one identifier; and a
parsed entry for such a token appears in the table under the empty genome
identifier. -/
theorem normalizeGenomeId_dotfree (t u : List Char)
    (ht : '.' ∉ lastPathSegment t) (hu : '.' ∉ lastPathSegment u) :
    normalizeGenomeId t = [] ∧
    normalizeGenomeId t = normalizeGenomeId u ∧
    ∀ lines i, (t, i) ∈ mcxResults lines →
      (⟨[], labelOf i⟩ : SpeciesRow) ∈ speciesTable lines := by
  have key : ∀ v : List Char, '.' ∉ lastPathSegment v → normalizeGenomeId v = [] := by
    intro v hv
    unfold normalizeGenomeId stripFinalExtension
    rw [splitOnChar_of_not_mem _ _ hv]
    rfl
  refine ⟨key t ht, by rw [key t ht, key u hu], ?_⟩
  intro lines i hmem
  exact List.mem_map.mpr ⟨(t, i), hmem, by rw [show (t, i).1 = t from rfl, key t ht]⟩

theorem normalizeGenomeId_dotfree_witness :
    '.' ∉ lastPathSegment ("genome1".toList) ∧
    '.' ∉ lastPathSegment ("/x/abc".toList) ∧
    normalizeGenomeId ("genome1".toList) = [] ∧
    normalizeGenomeId ("genome1".toList) = normalizeGenomeId ("/x/abc".toList) :=
  ⟨by decide, by decide,
    (normalizeGenomeId_dotfree ("genome1".toList) ("/x/abc".toList)
      (by decide) (by decide)).1,
    (normalizeGenomeId_dotfree ("genome1".toList) ("/x/abc".toList)
      (by decide) (by decide)).2.1⟩

theorem not_mem_line_of_lastIdx_none (t : Token) (ls : List (List Token))
    (h : lastIdx t ls = none) : ∀ l ∈ ls, t ∉ l := by
  induction ls with
  | nil => intro l hl; exact absurd hl (List.not_mem_nil l)
  | cons l ls ih =>
    intro l' hl'
    simp only [lastIdx] at h
    rcases hli : lastIdx t ls with _ | j
    · rw [hli] at h
      by_cases hm : t ∈ l
      · rw [if_pos hm] at h; exact absurd h (by simp)
      · rcases List.mem_cons.mp hl' with h' | h'
        · rw [h']; exact hm
        · exact ih hli l' h'
    · rw [hli] at h; exact absurd h (by simp)

/-- C3: for every dump file, a token appearing on 0-based line `i` and on no
later line ends up assigned cluster index `i`: the parser's dict holds `i`
for it, and the final table (single value column `FastANI_species`) contains
its row with the label `"C" + i`. -/
theorem parse_mcx_cluster_label (lines : List (List Token)) (i : Nat) (t : Token)
    (ht : t ∈ lines.getD i []) (hlast : ∀ j, i < j → t ∉ lines.getD j []) :
    lookupD t (mcxResults lines) = some i ∧
    (⟨normalizeGenomeId t, labelOf i⟩ : SpeciesRow) ∈ speciesTable lines ∧
    ∀ (d : List (Token × Nat)) (toks : List Token) (u : Token), u ∈ toks →
      lookupD u (insertLine i toks d) = some i := by
  have hli : lastIdx t lines = some i := lastIdx_eq_some_of t lines i ht hlast
  have hl : lookupD t (mcxResults lines) = some i := by
    rw [mcxResults, lookupD_buildResults, hli]
    simp
  refine ⟨hl, List.mem_map.mpr ⟨(t, i), mem_of_lookupD_eq_some t i _ hl, rfl⟩, ?_⟩
  intro d toks u hu
  exact lookupD_insertLine_of_mem i toks d u hu

theorem parse_mcx_cluster_label_witness :
    lookupD ("c.x".toList)
      (mcxResults [["a.x".toList], ["b.x".toList, "c.x".toList]]) = some 1 ∧
    (⟨normalizeGenomeId ("c.x".toList), labelOf 1⟩ : SpeciesRow) ∈
      speciesTable [["a.x".toList], ["b.x".toList, "c.x".toList]] ∧
    (∀ (d : List (Token × Nat)) (toks : List Token) (u : Token), u ∈ toks →
      lookupD u (insertLine 1 toks d) = some 1) :=
  parse_mcx_cluster_label [["a.x".toList], ["b.x".toList, "c.x".toList]] 1
    ("c.x".toList) (by decide)
    (by
      intro j hj
      have hlen : ([["a.x".toList], ["b.x".toList, "c.x".toList]] :
          List (List Token)).length ≤ j := by simp; omega
      rw [List.getD_eq_default _ _ hlen]
      exact List.not_mem_nil _)

/-- C10: the parser's dict has one entry per distinct token, and a token
appearing on several lines keeps the cluster index of the last line on which
it appears, because later assignments overwrite earlier ones. -/
theorem parse_mcx_last_line_wins (lines : List (List Token)) (t : Token)
    (h : ∃ l ∈ lines, t ∈ l) :
    ((mcxResults lines).map Prod.fst).Nodup ∧
    ∃ i, (t, i) ∈ mcxResults lines ∧ t ∈ lines.getD i [] ∧
      (∀ j, i < j → t ∉ lines.getD j []) ∧
      ∀ i', (t, i') ∈ mcxResults lines → i' = i := by
  refine ⟨nodup_keys_mcxResults lines, ?_⟩
  rcases hli : lastIdx t lines with _ | i
  · obtain ⟨l, hl, htl⟩ := h
    exact absurd htl (not_mem_line_of_lastIdx_none t lines hli l hl)
  · have hlook : lookupD t (mcxResults lines) = some i := by
      rw [mcxResults, lookupD_buildResults, hli]
      simp
    refine ⟨i, mem_of_lookupD_eq_some t i _ hlook,
      mem_getD_of_lastIdx t lines i hli,
      not_mem_getD_of_lastIdx_gt t lines i hli, ?_⟩
    intro i' hmem'
    have h2 := lookupD_eq_some_of_mem t i' _ (nodup_keys_mcxResults lines) hmem'
    rw [hlook] at h2
    injection h2 with h3
    exact h3.symm

theorem parse_mcx_last_line_wins_witness :
    ((mcxResults [["a.x".toList], ["a.x".toList]]).map Prod.fst).Nodup ∧
    ∃ i, ("a.x".toList, i) ∈ mcxResults [["a.x".toList], ["a.x".toList]] ∧
      "a.x".toList ∈ ([["a.x".toList], ["a.x".toList]] :
        List (List Token)).getD i [] ∧
      (∀ j, i < j → "a.x".toList ∉ ([["a.x".toList], ["a.x".toList]] :
        List (List Token)).getD j []) ∧
      ∀ i', ("a.x".toList, i') ∈ mcxResults [["a.x".toList], ["a.x".toList]] →
        i' = i :=
  parse_mcx_last_line_wins [["a.x".toList], ["a.x".toList]] ("a.x".toList)
    ⟨["a.x".toList], by decide, by decide⟩

/-- The manifest content splits on newlines into one field per path plus
the empty trailing field. -/
theorem splitOnChar_create_input (paths : List (List Char)) :
    (∀ p ∈ paths, '\n' ∉ p) →
    splitOnChar '\n' (create_input_for_fastani paths) = paths ++ [[]] := by
  induction paths with
  | nil => intro _; rfl
  | cons p ps ih =>
    intro h
    simp only [create_input_for_fastani]
    rw [splitOnChar_append_cons '\n' p _ (h p (List.mem_cons_self _ _)),
      ih (fun q hq => h q (List.mem_cons_of_mem _ hq))]
    rfl

/-- C8: for any prior content `old` (mode `"w"` truncates, so the result
does not depend on it) and any paths containing no newline, the written
manifest splits on newlines into exactly the paths (in order) followed by
the empty trailing field of the final newline: exactly one
newline-terminated line per input path. -/
theorem writeManifest_lines (old : List Char) (paths : List (List Char))
    (h : ∀ p ∈ paths, '\n' ∉ p) :
    splitOnChar '\n' (writeManifest old paths) = paths ++ [[]] ∧
    writeManifest old paths = writeManifest [] paths :=
  ⟨splitOnChar_create_input paths h, rfl⟩

theorem writeManifest_lines_witness :
    (∀ p ∈ ["/g/a.fna".toList, "/g/b.fna".toList], '\n' ∉ p) ∧
    splitOnChar '\n' (writeManifest "junk".toList
        ["/g/a.fna".toList, "/g/b.fna".toList]) =
      ["/g/a.fna".toList, "/g/b.fna".toList] ++ [[]] :=
  ⟨by decide,
    (writeManifest_lines "junk".toList ["/g/a.fna".toList, "/g/b.fna".toList]
      (by decide)).1⟩

/-! ### The four staging checks of `assign_species` (claim C4)

Each scenario: the controller reaches the stage in question (all earlier
stages behaved) and the stage's expected artifact does not appear. -/

inductive MissingStage where
  | manifest
  | similarity
  | edgeList
  | clustering
deriving DecidableEq

/-- The earlier stages behaved, so control reaches the stage in question. -/
def stageReached (env : Env) : MissingStage → Prop
  | MissingStage.manifest => True
  | MissingStage.similarity =>
      env.manifestPersists = true ∧ env.fastani.exitCode = 0
  | MissingStage.edgeList =>
      env.manifestPersists = true ∧ env.fastani.exitCode = 0 ∧
      env.fastani.creates = true
  | MissingStage.clustering =>
      env.manifestPersists = true ∧ env.fastani.exitCode = 0 ∧
      env.fastani.creates = true ∧ env.edgeListPersists = true ∧
      env.mcxload.exitCode = 0 ∧ env.mcxload.creates = true ∧
      env.mcl.exitCode = 0 ∧ env.mcl.creates = true ∧
      env.mcxdump.exitCode = 0

/-- The stage in question leaves no output artifact. -/
def stageArtifactAbsent (env : Env) : MissingStage → Prop
  | MissingStage.manifest => env.manifestPersists = false
  | MissingStage.similarity => env.fastani.creates = false
  | MissingStage.edgeList => env.edgeListPersists = false
  | MissingStage.clustering => env.mcxdump.creates = false

/-- The artifact name in the raised `FileNotFoundError`.  For the first
three stages it is the controller's own `f"... was not created"` message;
for the clustering stage the failure surfaces through `Path.rename` inside
`clean_mcl`, which names the missing dump file (the clustering stage's
artifact) itself. -/
def missingMsg : MissingStage → String
  | MissingStage.manifest => notCreatedMsg fastANIinputName
  | MissingStage.similarity => notCreatedMsg fastANItsvName
  | MissingStage.edgeList => notCreatedMsg forMclName
  | MissingStage.clustering => mcxDumpName

/-- The external commands that have been dispatched when the error is
raised: nothing after the failing check runs. -/
def executedThrough : MissingStage → List String
  | MissingStage.manifest => []
  | MissingStage.similarity => ["fastANI"]
  | MissingStage.edgeList => ["fastANI"]
  | MissingStage.clustering => ["fastANI", "mcxload", "mcl", "mcxdump"]

/-- C4: when a stage the controller reaches leaves its expected artifact
absent, `assign_species` ends with a `fileNotFound` error naming that
stage's artifact — a kind disjoint from the `runtimeError` raised for a
non-zero exit status — no external command after that stage is dispatched,
and the final table is never written. -/
theorem assign_species_missing_output (env : Env) (s : MissingStage)
    (hr : stageReached env s) (ha : stageArtifactAbsent env s) :
    (assign_species env).2 =
      Except.error (PipelineError.fileNotFound (missingMsg s)) ∧
    (∀ m e, PipelineError.fileNotFound m ≠ PipelineError.runtimeError e) ∧
    (assign_species env).1.executed = executedThrough s ∧
    xlsxName ∉ (assign_species env).1.files := by
  obtain ⟨mp, ⟨faE, faC⟩, ⟨loE, loC⟩, ⟨mcE, mcC⟩, ⟨mdE, mdC⟩, ep⟩ := env
  cases s with
  | manifest =>
    dsimp only [stageArtifactAbsent] at ha
    subst ha
    refine ⟨rfl, fun m e h => PipelineError.noConfusion h, rfl, ?_⟩
    show xlsxName ∉ ([] : List String)
    decide
  | similarity =>
    dsimp only [stageReached] at hr
    dsimp only [stageArtifactAbsent] at ha
    obtain ⟨h1, h2⟩ := hr
    subst h1; subst h2; subst ha
    refine ⟨rfl, fun m e h => PipelineError.noConfusion h, rfl, ?_⟩
    show xlsxName ∉ ([fastANIinputName] : List String)
    decide
  | edgeList =>
    dsimp only [stageReached] at hr
    dsimp only [stageArtifactAbsent] at ha
    obtain ⟨h1, h2, h3⟩ := hr
    subst h1; subst h2; subst h3; subst ha
    refine ⟨rfl, fun m e h => PipelineError.noConfusion h, rfl, ?_⟩
    show xlsxName ∉ ([fastANItsvName, fastANIinputName] : List String)
    decide
  | clustering =>
    dsimp only [stageReached] at hr
    dsimp only [stageArtifactAbsent] at ha
    obtain ⟨h1, h2, h3, h4, h5, h6, h7, h8, h9⟩ := hr
    subst h1; subst h2; subst h3; subst h4; subst h5
    subst h6; subst h7; subst h8; subst h9; subst ha
    refine ⟨rfl, fun m e h => PipelineError.noConfusion h, rfl, ?_⟩
    show xlsxName ∉ ([fastANItsvName] : List String)
    decide

/-- An environment where fastANI exits cleanly without writing its output. -/
def envNoTsv : Env := ⟨true, ⟨0, false⟩, ⟨0, true⟩, ⟨0, true⟩, ⟨0, true⟩, true⟩

theorem assign_species_missing_output_witness :
    (assign_species envNoTsv).2 =
      Except.error (PipelineError.fileNotFound (missingMsg MissingStage.similarity)) ∧
    (∀ m e, PipelineError.fileNotFound m ≠ PipelineError.runtimeError e) ∧
    (assign_species envNoTsv).1.executed = executedThrough MissingStage.similarity ∧
    xlsxName ∉ (assign_species envNoTsv).1.files :=
  assign_species_missing_output envNoTsv MissingStage.similarity
    (by exact ⟨rfl, rfl⟩) rfl

theorem mem_ite_addFiles (a : String) (b : Bool) (outs fs : List String)
    (h : a ∈ fs) : a ∈ (if b = true then addFiles outs fs else fs) := by
  cases b
  · simpa using h
  · simpa [mem_addFiles] using Or.inr h

theorem mem_of_mem_ite_addFiles (a : String) (b : Bool) (outs fs : List String)
    (h : a ∈ (if b = true then addFiles outs fs else fs)) :
    a ∈ outs ∨ a ∈ fs := by
  cases b
  · exact Or.inr (by simpa using h)
  · simpa [mem_addFiles] using h

/-- C5: if any of the three clustering-toolchain commands exits non-zero,
`run_mcl` raises the `RuntimeError` "Something went wrong with MCL", runs no
command after the failing one, and skips `clean_mcl` entirely: no file
present before is deleted, and `fastANI_clusters.tsv` is not produced. -/
theorem run_mcl_tool_failure (env : Env) (ps : PState)
    (h : ¬(env.mcxload.exitCode = 0 ∧ env.mcl.exitCode = 0 ∧
      env.mcxdump.exitCode = 0)) :
    (run_mcl env ps).2 = Except.error (PipelineError.runtimeError mclFailMsg) ∧
    (∀ f ∈ ps.files, f ∈ (run_mcl env ps).1.files) ∧
    (clustersName ∈ (run_mcl env ps).1.files → clustersName ∈ ps.files) ∧
    (run_mcl env ps).1.executed = ps.executed ++
      (if env.mcxload.exitCode ≠ 0 then ["mcxload"]
       else if env.mcl.exitCode ≠ 0 then ["mcxload", "mcl"]
       else ["mcxload", "mcl", "mcxdump"]) := by
  by_cases h1 : env.mcxload.exitCode = 0
  · by_cases h2 : env.mcl.exitCode = 0
    · have h3 : env.mcxdump.exitCode ≠ 0 := fun hx => h ⟨h1, h2, hx⟩
      simp only [run_mcl, runTool, h1, h2, h3, ne_eq, not_true_eq_false,
        not_false_eq_true, if_true, if_false, ite_true, ite_false,
        List.append_assoc]
      refine ⟨by trivial, ?_, ?_, by trivial⟩
      · intro f hf
        exact mem_ite_addFiles _ _ _ _ (mem_ite_addFiles _ _ _ _
          (mem_ite_addFiles _ _ _ _ hf))
      · intro hc
        rcases mem_of_mem_ite_addFiles _ _ _ _ hc with hx | hc
        · exact absurd hx (by decide)
        rcases mem_of_mem_ite_addFiles _ _ _ _ hc with hx | hc
        · exact absurd hx (by decide)
        rcases mem_of_mem_ite_addFiles _ _ _ _ hc with hx | hc
        · exact absurd hx (by decide)
        exact hc
    · simp only [run_mcl, runTool, h1, h2, ne_eq, not_true_eq_false,
        not_false_eq_true, if_true, if_false, ite_true, ite_false,
        List.append_assoc]
      refine ⟨by trivial, ?_, ?_, by trivial⟩
      · intro f hf
        exact mem_ite_addFiles _ _ _ _ (mem_ite_addFiles _ _ _ _ hf)
      · intro hc
        rcases mem_of_mem_ite_addFiles _ _ _ _ hc with hx | hc
        · exact absurd hx (by decide)
        rcases mem_of_mem_ite_addFiles _ _ _ _ hc with hx | hc
        · exact absurd hx (by decide)
        exact hc
  · simp only [run_mcl, runTool, h1, ne_eq, not_false_eq_true, if_true,
      ite_true, ite_false, if_false]
    refine ⟨by trivial, ?_, ?_, by trivial⟩
    · intro f hf
      exact mem_ite_addFiles _ _ _ _ hf
    · intro hc
      rcases mem_of_mem_ite_addFiles _ _ _ _ hc with hx | hc
      · exact absurd hx (by decide)
      exact hc

/-- An environment where mcxload exits with status 1. -/
def envLoadFail : Env := ⟨true, ⟨0, true⟩, ⟨1, true⟩, ⟨0, true⟩, ⟨0, true⟩, true⟩

/-- The staging state just before `run_mcl` in a run where the earlier
stages succeeded. -/
def psBeforeMcl : PState :=
  ⟨[forMclName, fastANItsvName, fastANIinputName], ["fastANI"]⟩

theorem run_mcl_tool_failure_witness :
    (run_mcl envLoadFail psBeforeMcl).2 =
      Except.error (PipelineError.runtimeError mclFailMsg) ∧
    (∀ f ∈ psBeforeMcl.files, f ∈ (run_mcl envLoadFail psBeforeMcl).1.files) ∧
    (clustersName ∈ (run_mcl envLoadFail psBeforeMcl).1.files →
      clustersName ∈ psBeforeMcl.files) ∧
    (run_mcl envLoadFail psBeforeMcl).1.executed = psBeforeMcl.executed ++
      (if envLoadFail.mcxload.exitCode ≠ 0 then ["mcxload"]
       else if envLoadFail.mcl.exitCode ≠ 0 then ["mcxload", "mcl"]
       else ["mcxload", "mcl", "mcxdump"]) :=
  run_mcl_tool_failure envLoadFail psBeforeMcl (by decide)

/-- C6: when fastANI exits non-zero, `assign_species` ends with the
`RuntimeError` "fastANI command was not successful"; only the fastANI
command was ever dispatched and neither the edge list, nor any clustering
intermediate, nor the final table is created. -/
theorem assign_species_fastani_failure (env : Env)
    (hm : env.manifestPersists = true) (hf : env.fastani.exitCode ≠ 0) :
    (assign_species env).2 =
      Except.error (PipelineError.runtimeError fastaniFailMsg) ∧
    (assign_species env).1.executed = ["fastANI"] ∧
    forMclName ∉ (assign_species env).1.files ∧
    mtrxName ∉ (assign_species env).1.files ∧
    mclOutName ∉ (assign_species env).1.files ∧
    clustersName ∉ (assign_species env).1.files ∧
    xlsxName ∉ (assign_species env).1.files := by
  obtain ⟨mp, ⟨faE, faC⟩, lo, mc, md, ep⟩ := env
  dsimp only at hm hf
  subst hm
  rcases faE with _ | n
  · exact absurd rfl hf
  · by_cases hc : faC = true
    · subst hc
      refine ⟨rfl, rfl, ?_, ?_, ?_, ?_, ?_⟩ <;>
        · show _ ∉ ([fastANItsvName, fastANIinputName] : List String)
          decide
    · have hc' : faC = false := by revert hc; cases faC <;> simp
      subst hc'
      refine ⟨rfl, rfl, ?_, ?_, ?_, ?_, ?_⟩ <;>
        · show _ ∉ ([fastANIinputName] : List String)
          decide

/-- An environment where fastANI exits with status 1 (writing nothing). -/
def envFastaniFails : Env := ⟨true, ⟨1, false⟩, ⟨0, true⟩, ⟨0, true⟩, ⟨0, true⟩, true⟩

theorem assign_species_fastani_failure_witness :
    (assign_species envFastaniFails).2 =
      Except.error (PipelineError.runtimeError fastaniFailMsg) ∧
    (assign_species envFastaniFails).1.executed = ["fastANI"] ∧
    forMclName ∉ (assign_species envFastaniFails).1.files ∧
    mtrxName ∉ (assign_species envFastaniFails).1.files ∧
    mclOutName ∉ (assign_species envFastaniFails).1.files ∧
    clustersName ∉ (assign_species envFastaniFails).1.files ∧
    xlsxName ∉ (assign_species envFastaniFails).1.files :=
  assign_species_fastani_failure envFastaniFails rfl (by decide)

/-- C7: in a fully successful run (every tool exits 0 and writes its
outputs, both controller writes persist), `assign_species` succeeds and the
staging directory holds exactly the similarity table `FastANI.tsv` and the
final cluster-assignment table `FastANI_species_clusters.xlsx`: the
manifest, the edge list, the loaded matrix, the label table, the raw
cluster output and the dump file (renamed to `fastANI_clusters.tsv` by
`clean_mcl`, then unlinked by `parse_mcx_output`) are all gone. -/
theorem assign_species_success_cleanup (env : Env)
    (h1 : env.manifestPersists = true) (h2 : env.fastani.exitCode = 0)
    (h3 : env.fastani.creates = true) (h4 : env.edgeListPersists = true)
    (h5 : env.mcxload.exitCode = 0) (h6 : env.mcxload.creates = true)
    (h7 : env.mcl.exitCode = 0) (h8 : env.mcl.creates = true)
    (h9 : env.mcxdump.exitCode = 0) (h10 : env.mcxdump.creates = true) :
    (assign_species env).2 = Except.ok () ∧
    ∀ f, f ∈ (assign_species env).1.files ↔
      (f = fastANItsvName ∨ f = xlsxName) := by
  obtain ⟨mp, ⟨faE, faC⟩, ⟨loE, loC⟩, ⟨mcE, mcC⟩, ⟨mdE, mdC⟩, ep⟩ := env
  dsimp only at h1 h2 h3 h4 h5 h6 h7 h8 h9 h10
  subst h1; subst h2; subst h3; subst h4; subst h5
  subst h6; subst h7; subst h8; subst h9; subst h10
  have hfiles :
      (assign_species ⟨true, ⟨0, true⟩, ⟨0, true⟩, ⟨0, true⟩, ⟨0, true⟩, true⟩).1.files
        = [xlsxName, fastANItsvName] := by decide
  refine ⟨by decide, ?_⟩
  intro f
  rw [hfiles]
  simp only [List.mem_cons, List.not_mem_nil, or_false]
  exact or_comm

/-- The all-good environment: every tool exits 0 and writes its outputs. -/
def envAllGood : Env := ⟨true, ⟨0, true⟩, ⟨0, true⟩, ⟨0, true⟩, ⟨0, true⟩, true⟩

theorem assign_species_success_cleanup_witness :
    (assign_species envAllGood).2 = Except.ok () ∧
    ∀ f, f ∈ (assign_species envAllGood).1.files ↔
      (f = fastANItsvName ∨ f = xlsxName) :=
  assign_species_success_cleanup envAllGood rfl rfl rfl rfl rfl rfl rfl rfl rfl rfl
